import Mathlib

/-!
# OpenPlayground — verification of the project-showcase data pipeline

Shallow embedding of the data logic of `src/js/app.js` (the `ProjectManager`
controller and the `fetchContributors` helper) together with the
`ProjectVisibilityEngine` contract, over plain Lean data types.

Strings are modelled as lists of code points (`List Nat`), mirroring how the
JavaScript code treats strings as sequences of code units.  Lower-casing is
modelled on the ASCII range, which is the range exercised by the catalog data
and by every property below.
-/

/-- A string, modelled as the list of its code points. -/
abbrev Str := List Nat

/-- Code points of a Lean string literal, used to write concrete inputs. -/
def String.codes (s : String) : Str := s.toList.map Char.toNat

/-- ASCII lower-casing of one code point, modelling `String.prototype.toLowerCase`
on the ASCII range: `A`–`Z` (65–90) map to `a`–`z`, everything else is fixed. -/
def lowerCode (c : Nat) : Nat := if 65 ≤ c ∧ c ≤ 90 then c + 32 else c

/-- Lower-casing of a whole string (`s.toLowerCase()`). -/
def toLowerStr (s : Str) : Str := s.map lowerCode

/-- `hay.includes(needle)` from JavaScript: `needle` occurs as a contiguous
substring of `hay`. -/
def strContains : Str → Str → Bool
  | [], needle => needle.isEmpty
  | a :: t, needle => needle.isPrefixOf (a :: t) || strContains t needle

theorem strContains_iff_infix (hay needle : Str) :
    strContains hay needle = true ↔ needle <:+: hay := by
  induction hay with
  | nil =>
    simp [strContains, List.isEmpty_iff, List.infix_nil]
  | cons a t ih =>
    simp [strContains, List.infix_cons_iff, ih, List.isPrefixOf_iff_prefix,
      or_comm]

/-- JavaScript truthiness of an optional string field: absent (`undefined`) and
the empty string are falsy, every other string is truthy. -/
def truthyS : Option Str → Bool
  | none => false
  | some s => !s.isEmpty

/-- A project record (`project.json` entry).  `title` and `link` may be absent,
matching the raw JSON the loader receives before validation. -/
structure Project where
  title : Option Str
  link : Option Str
  category : Option Str
  description : Option Str
  tech : List Str
deriving DecidableEq

/-- `!project.title || !project.link` is false: both mandatory fields present
and non-empty (app.js line 89). -/
def Project.valid (p : Project) : Bool := truthyS p.title && truthyS p.link

/-- `project.title.toLowerCase()`, the deduplication key (app.js line 90). -/
def Project.key (p : Project) : Str := toLowerStr (p.title.getD [])

/-- The deduplication filter of `ProjectManager.fetchProjects`
(app.js lines 86–94): drop records missing `title` or `link`; thereafter keep a
record only when its lower-cased title has not been seen before.  `seen` is the
`Set` accumulated by the closure. -/
def dedupAux (seen : List Str) : List Project → List Project
  | [] => []
  | p :: ps =>
    if p.valid then
      if p.key ∈ seen then dedupAux seen ps
      else p :: dedupAux (p.key :: seen) ps
    else dedupAux seen ps

/-- `projects.filter(...)` with the fresh `seen = new Set()`. -/
def dedup (ps : List Project) : List Project := dedupAux [] ps

/-- The first record of `ps` that is valid and has deduplication key `k`. -/
def firstValidWithKey (ps : List Project) (k : Str) : Option Project :=
  ps.find? (fun p => p.valid && decide (p.key = k))

theorem dedupAux_sublist (seen : List Str) (ps : List Project) :
    List.Sublist (dedupAux seen ps) ps := by
  induction ps generalizing seen with
  | nil => simp [dedupAux]
  | cons p ps ih =>
    simp only [dedupAux]
    split
    · split
      · exact (ih seen).cons p
      · exact (ih (p.key :: seen)).cons₂ p
    · exact (ih seen).cons p

theorem dedupAux_valid (seen : List Str) (ps : List Project) :
    ∀ q ∈ dedupAux seen ps, q.valid = true := by
  induction ps generalizing seen with
  | nil => simp [dedupAux]
  | cons p ps ih =>
    intro q hq
    simp only [dedupAux] at hq
    split at hq
    · split at hq
      · exact ih seen q hq
      · rcases List.mem_cons.mp hq with rfl | hq
        · assumption
        · exact ih (p.key :: seen) q hq
    · exact ih seen q hq

theorem dedupAux_mem_iff (seen : List Str) (ps : List Project) (q : Project) :
    q ∈ dedupAux seen ps ↔
      q.valid = true ∧ q.key ∉ seen ∧ firstValidWithKey ps q.key = some q := by
  induction ps generalizing seen with
  | nil => simp [dedupAux, firstValidWithKey]
  | cons p ps ih =>
    simp only [dedupAux, firstValidWithKey, List.find?]
    by_cases hv : p.valid = true
    · by_cases hk : p.key = q.key
      · have hpred : (p.valid && decide (p.key = q.key)) = true := by
          simp [hv, hk]
        rw [hpred]
        simp only [hv, if_true]
        by_cases hseen : p.key ∈ seen
        · simp only [hseen, if_true]
          rw [ih seen]
          constructor
          · rintro ⟨h1, h2, h3⟩
            exact absurd (hk ▸ hseen) h2
          · rintro ⟨h1, h2, h3⟩
            obtain rfl : p = q := by
              simpa using h3
            exact absurd (hk ▸ hseen) h2
        · simp only [hseen, if_false, List.mem_cons]
          rw [ih (p.key :: seen)]
          constructor
          · rintro (rfl | ⟨h1, h2, h3⟩)
            · exact ⟨hv, hk ▸ hseen, by simp⟩
            · exact absurd (List.mem_cons_self _ _) (hk ▸ h2 ∘ (hk ▸ ·))
          · rintro ⟨h1, h2, h3⟩
            obtain rfl : p = q := by simpa using h3
            exact Or.inl rfl
      · have hpred : (p.valid && decide (p.key = q.key)) = false := by
          simp [hk]
        rw [hpred]
        simp only [hv, if_true]
        by_cases hseen : p.key ∈ seen
        · simp only [hseen, if_true]
          exact ih seen
        · simp only [hseen, if_false, List.mem_cons]
          rw [ih (p.key :: seen)]
          constructor
          · rintro (rfl | ⟨h1, h2, h3⟩)
            · exact absurd rfl hk
            · exact ⟨h1, fun h => h2 (List.mem_cons_of_mem _ h), h3⟩
          · rintro ⟨h1, h2, h3⟩
            refine Or.inr ⟨h1, ?_, h3⟩
            intro h
            rcases List.mem_cons.mp h with h | h
            · exact hk h.symm
            · exact h2 h
    · have hpred : (p.valid && decide (p.key = q.key)) = false := by
        simp [Bool.eq_false_iff.mpr hv]
      rw [hpred]
      simp only [hv, if_false]
      exact ih seen

theorem dedupAux_key_not_seen (seen : List Str) (ps : List Project) :
    ∀ q ∈ dedupAux seen ps, q.key ∉ seen := fun q hq =>
  ((dedupAux_mem_iff seen ps q).mp hq).2.1

theorem dedupAux_pairwise_keys (seen : List Str) (ps : List Project) :
    (dedupAux seen ps).Pairwise (fun a b => a.key ≠ b.key) := by
  induction ps generalizing seen with
  | nil => simp [dedupAux]
  | cons p ps ih =>
    simp only [dedupAux]
    split
    · split
      · exact ih seen
      · refine List.Pairwise.cons ?_ (ih (p.key :: seen))
        intro q hq hkey
        exact dedupAux_key_not_seen _ _ q hq (hkey ▸ List.mem_cons_self _ _)
    · exact ih seen

/-- A concrete valid record titled `"Foo"`. -/
def fooUpperRec : Project :=
  { title := some ("Foo".codes), link := some ("a.html".codes),
    category := some ("web".codes), description := none, tech := [] }

/-- A concrete valid record titled `"foo"`, same title up to case. -/
def fooLowerRec : Project :=
  { title := some ("foo".codes), link := some ("b.html".codes),
    category := some ("game".codes), description := none, tech := [] }

/-- A concrete record with a title but no `link`. -/
def noLinkRec : Project :=
  { title := some ("Bar".codes), link := none,
    category := some ("web".codes), description := none, tech := [] }

/-- C2: the deduplicated store keeps exactly the records with truthy `title`
and `link`, first occurrence per lower-cased title, in input order: it is a
subsequence of the input; every kept record has both mandatory fields; a record
is kept iff it is the first valid record of the input bearing its key; kept
keys are pairwise distinct; and concretely `"Foo"`/`"foo"` collapse to the
first record while a record without `link` is dropped. -/
theorem dedup_spec :
    (∀ ps, List.Sublist (dedup ps) ps) ∧
    (∀ ps, ∀ q ∈ dedup ps, truthyS q.title = true ∧ truthyS q.link = true) ∧
    (∀ ps q, q ∈ dedup ps ↔ q.valid = true ∧ firstValidWithKey ps q.key = some q) ∧
    (∀ ps, (dedup ps).Pairwise (fun a b => a.key ≠ b.key)) ∧
    dedup [fooUpperRec, fooLowerRec] = [fooUpperRec] ∧
    dedup [noLinkRec, fooUpperRec] = [fooUpperRec] := by
  refine ⟨fun ps => dedupAux_sublist [] ps, ?_, ?_, fun ps => dedupAux_pairwise_keys [] ps, by decide, by decide⟩
  · intro ps q hq
    have h := dedupAux_valid [] ps q hq
    simp only [Project.valid, Bool.and_eq_true] at h
    exact h
  · intro ps q
    rw [dedup, dedupAux_mem_iff]
    simp

/-- Modelled from the spec: `src/js/app.js` imports
`./core/projectVisibilityEngine.js`, which is not among the sources.  Per the
spec contract, a record matches the current category when the category is unset
(`none`), is `"all"`, or equals the record's category exactly. -/
def matchesCategory (c : Option Str) (p : Project) : Bool :=
  match c with
  | none => true
  | some s => decide (s = "all".codes) || decide (p.category = some s)

/-- Modelled from the spec: a record matches the search query when the query is
contained case-insensitively in the title, the description, or some tech
entry; the empty query matches everything. -/
def matchesQuery (q : Str) (p : Project) : Bool :=
  strContains (toLowerStr (p.title.getD [])) (toLowerStr q) ||
  strContains (toLowerStr (p.description.getD [])) (toLowerStr q) ||
  p.tech.any (fun t => strContains (toLowerStr t) (toLowerStr q))

/-- Modelled from the spec: `getVisibleProjects()` returns the ordered
subsequence of the full project store matching the current category and
containing the current search query, with no reordering and no pagination. -/
def getVisibleProjects (store : List Project) (c : Option Str) (q : Str) :
    List Project :=
  store.filter (fun p => matchesCategory c p && matchesQuery q p)

theorem strContains_nil_right (hay : Str) : strContains hay [] = true := by
  cases hay <;> simp [strContains, List.isPrefixOf]

/-- C1: the engine's visible list is the ordered subsequence of the store whose
records match the category (all records when the category is unset or `"all"`)
and contain the query case-insensitively in title, description, or a tech
entry; the empty query yields exactly the category-filtered store, and order is
preserved for every query and category. -/
theorem getVisibleProjects_spec :
    (∀ store c q, List.Sublist (getVisibleProjects store c q) store) ∧
    (∀ store c q p, p ∈ getVisibleProjects store c q ↔
      p ∈ store ∧
      (c = none ∨ c = some ("all".codes) ∨ p.category = c) ∧
      (toLowerStr q <:+: toLowerStr (p.title.getD []) ∨
       toLowerStr q <:+: toLowerStr (p.description.getD []) ∨
       ∃ t ∈ p.tech, toLowerStr q <:+: toLowerStr t)) ∧
    (∀ store c, getVisibleProjects store c [] = store.filter (matchesCategory c)) := by
  refine ⟨fun store c q => List.filter_sublist store, ?_, ?_⟩
  · intro store c q p
    rw [getVisibleProjects, List.mem_filter]
    constructor
    · rintro ⟨hmem, hmatch⟩
      simp only [Bool.and_eq_true, matchesQuery, Bool.or_eq_true,
        strContains_iff_infix, List.any_eq_true] at hmatch
      obtain ⟨hcat, hq⟩ := hmatch
      refine ⟨hmem, ?_, by tauto⟩
      rcases c with _ | s
      · exact Or.inl rfl
      · simp only [matchesCategory, Bool.or_eq_true, decide_eq_true_eq] at hcat
        rcases hcat with h | h
        · exact Or.inr (Or.inl (by rw [h]))
        · exact Or.inr (Or.inr h)
    · rintro ⟨hmem, hcat, hq⟩
      refine ⟨hmem, ?_⟩
      simp only [Bool.and_eq_true]
      constructor
      · rcases hcat with rfl | rfl | h
        · rfl
        · simp [matchesCategory]
        · rcases c with _ | s
          · rfl
          · simp [matchesCategory, ← h]
      · simp only [matchesQuery, Bool.or_eq_true, strContains_iff_infix,
          List.any_eq_true]
        tauto
  · intro store c
    rw [getVisibleProjects]
    apply List.filter_congr
    intro p _
    simp [matchesQuery, toLowerStr, strContains_nil_right]

/-- `Math.ceil(filtered.length / ITEMS_PER_PAGE)` from `render()`
(app.js line 412), with the division taken over exact rationals. -/
def totalPages (n S : Nat) : Int := ⌈(n : ℚ) / (S : ℚ)⌉

/-- `filtered.slice(start, start + S)` with `start = (page - 1) * S`
(app.js lines 413–414). -/
def pageSlice {α : Type} (l : List α) (p S : Nat) : List α :=
  (l.drop ((p - 1) * S)).take S

/-- C3: for a filtered sequence of length `N` and page size `S`, 1-based page
`p` is the slice `[(p-1)*S, min(N, p*S))`; the page count is the rational
ceiling of `N / S` (characterized by `N ≤ pages*S < N + S`), `0` when `N = 0`;
and concretely for `N = 25`, `S = 12`: page 1 has 12 items, page 3 has 1 item,
and there are 3 pages. -/
theorem pagination_spec {α : Type} (l : List α) (p S : Nat)
    (hp : 1 ≤ p) (hS : 0 < S) :
    pageSlice l p S = (l.take (min l.length (p * S))).drop ((p - 1) * S) ∧
    (l.length : ℤ) ≤ totalPages l.length S * S ∧
    totalPages l.length S * S < l.length + S ∧
    totalPages 0 S = 0 ∧
    totalPages 25 12 = 3 ∧
    (pageSlice (List.range 25) 1 12).length = 12 ∧
    (pageSlice (List.range 25) 3 12).length = 1 := by
  have hSQ : (0 : ℚ) < (S : ℚ) := by exact_mod_cast hS
  have hceil := Int.le_ceil ((l.length : ℚ) / (S : ℚ))
  have hceil' := Int.ceil_lt_add_one ((l.length : ℚ) / (S : ℚ))
  refine ⟨?_, ?_, ?_, ?_, ?_, ?_, ?_⟩
  · rw [pageSlice, List.take_drop]
    have h1 : (p - 1) * S + S = p * S := by
      rw [Nat.sub_one_mul, Nat.sub_add_cancel (Nat.le_mul_of_pos_left S hp)]
    rw [h1, Nat.min_comm, ← List.take_take, List.take_length]
  · have : (l.length : ℚ) ≤ (totalPages l.length S : ℚ) * (S : ℚ) := by
      calc (l.length : ℚ) = (l.length : ℚ) / (S : ℚ) * (S : ℚ) := by
            field_simp
        _ ≤ (totalPages l.length S : ℚ) * (S : ℚ) :=
            mul_le_mul_of_nonneg_right hceil (le_of_lt hSQ)
    exact_mod_cast this
  · have : (totalPages l.length S : ℚ) * (S : ℚ) < (l.length : ℚ) + (S : ℚ) := by
      calc (totalPages l.length S : ℚ) * (S : ℚ)
          < ((l.length : ℚ) / (S : ℚ) + 1) * (S : ℚ) :=
            mul_lt_mul_of_pos_right hceil' hSQ
        _ = (l.length : ℚ) + (S : ℚ) := by field_simp
    exact_mod_cast this
  · simp [totalPages]
  · rw [totalPages]
    rw [show ((25 : Nat) : ℚ) / ((12 : Nat) : ℚ) = (25 : ℚ) / 12 by norm_num]
    rw [Int.ceil_eq_iff]
    norm_num
  · rfl
  · rfl

theorem pagination_spec_witness :
    pageSlice (List.range 25) 1 12 =
      ((List.range 25).take (min (List.range 25).length (1 * 12))).drop
        ((1 - 1) * 12) :=
  (pagination_spec (List.range 25) 1 12 (by decide) (by decide)).1

/-- The character class `[a-zA-Z0-9]` of the sanitizing regex in
`ProjectManager.sanitizeKey` (app.js line 254). -/
def isAlnumCode (c : Nat) : Bool :=
  decide ((48 ≤ c ∧ c ≤ 57) ∨ (65 ≤ c ∧ c ≤ 90) ∨ (97 ≤ c ∧ c ≤ 122))

/-- One character of `sanitizeKey`: non-alphanumerics become `_` (code 95),
then the result is lower-cased. -/
def sanitizeCode (c : Nat) : Nat :=
  lowerCode (if isAlnumCode c then c else 95)

/-- `title.replace(/[^a-zA-Z0-9]/g, '_').toLowerCase()`
(`ProjectManager.sanitizeKey`, app.js lines 253–255). -/
def sanitizeKey (title : Str) : Str :=
  toLowerStr (title.map (fun c => if isAlnumCode c then c else 95))

theorem sanitizeKey_eq_map (t : Str) : sanitizeKey t = t.map sanitizeCode := by
  simp [sanitizeKey, toLowerStr, List.map_map, sanitizeCode, Function.comp]

/-- One stored rating: `{rating, review, timestamp}`
(`ProjectManager.submitRating`, app.js lines 335–339). -/
structure RatingEntry where
  rating : Nat
  review : Option Str
  timestamp : Nat
deriving DecidableEq

/-- The `localStorage`-backed rating store, a map from sanitized key to the
ordered list of ratings; absent keys read as `[]` (`this.ratings[key] || []`). -/
def Ratings := Str → List RatingEntry

/-- `ProjectManager.getProjectRating` (app.js lines 241–251): the pair
(average, count), `(0, 0)` when the project has no ratings.  The `reduce`
accumulator is modelled by `foldl`. -/
def getProjectRating (R : Ratings) (title : Str) : ℚ × Nat :=
  let projectRatings := R (sanitizeKey title)
  if projectRatings.length = 0 then (0, 0)
  else
    (projectRatings.foldl (fun acc r => acc + (r.rating : ℚ)) 0 /
       (projectRatings.length : ℚ),
     projectRatings.length)

/-- `ProjectManager.submitRating` (app.js lines 329–342): append one rating at
the end of the sanitized key's list, creating the list if absent. -/
def submitRating (R : Ratings) (title : Str) (rating : Nat) (review : Str)
    (ts : Nat) : Ratings :=
  fun k =>
    if k = sanitizeKey title then R k ++ [⟨rating, some review, ts⟩] else R k

theorem foldl_rating_sum (l : List RatingEntry) (init : ℚ) :
    l.foldl (fun acc r => acc + (r.rating : ℚ)) init =
      init + (l.map (fun r => (r.rating : ℚ))).sum := by
  induction l generalizing init with
  | nil => simp
  | cons r l ih => simp [List.foldl_cons, ih, add_assoc]

/-- C8: for a project whose stored rating list is non-empty, the rating result
is the pair (sum of ratings / number of ratings, number of ratings). -/
theorem getProjectRating_avg (R : Ratings) (title : Str)
    (h : R (sanitizeKey title) ≠ []) :
    getProjectRating R title =
      (((R (sanitizeKey title)).map (fun r => (r.rating : ℚ))).sum /
         ((R (sanitizeKey title)).length : ℚ),
       (R (sanitizeKey title)).length) := by
  rw [getProjectRating]
  simp only [List.length_eq_zero]
  rw [if_neg h, foldl_rating_sum, zero_add]

/-- A concrete rating store holding ratings `[5, 3, 4]` for the title
`"Demo"`. -/
def demoRatings : Ratings := fun k =>
  if k = sanitizeKey ("Demo".codes) then
    [⟨5, none, 0⟩, ⟨3, none, 1⟩, ⟨4, none, 2⟩]
  else []

theorem getProjectRating_avg_witness :
    demoRatings (sanitizeKey ("Demo".codes)) ≠ [] ∧
    getProjectRating demoRatings ("Demo".codes) = (4, 3) := by
  have h : demoRatings (sanitizeKey ("Demo".codes)) ≠ [] := by
    simp [demoRatings]
  refine ⟨h, ?_⟩
  rw [getProjectRating_avg demoRatings ("Demo".codes) h]
  norm_num [demoRatings]

theorem isAlnumCode_iff (c : Nat) :
    isAlnumCode c = true ↔
      (48 ≤ c ∧ c ≤ 57) ∨ (65 ≤ c ∧ c ≤ 90) ∨ (97 ≤ c ∧ c ≤ 122) := by
  simp [isAlnumCode]

theorem sanitizeCode_congr {c d : Nat}
    (h : lowerCode c = lowerCode d ∨
         (isAlnumCode c = false ∧ isAlnumCode d = false)) :
    sanitizeCode c = sanitizeCode d := by
  simp only [sanitizeCode]
  rcases h with h | ⟨h1, h2⟩
  · by_cases pc : isAlnumCode c = true <;> by_cases pd : isAlnumCode d = true
    · rw [if_pos pc, if_pos pd]; exact h
    · rw [if_pos pc, if_neg pd]
      have Pc := (isAlnumCode_iff c).mp pc
      have Pd : ¬((48 ≤ d ∧ d ≤ 57) ∨ (65 ≤ d ∧ d ≤ 90) ∨
          (97 ≤ d ∧ d ≤ 122)) := fun hp => pd ((isAlnumCode_iff d).mpr hp)
      simp only [lowerCode] at h ⊢
      split_ifs at h ⊢ <;> omega
    · rw [if_neg pc, if_pos pd]
      have Pd := (isAlnumCode_iff d).mp pd
      have Pc : ¬((48 ≤ c ∧ c ≤ 57) ∨ (65 ≤ c ∧ c ≤ 90) ∨
          (97 ≤ c ∧ c ≤ 122)) := fun hp => pc ((isAlnumCode_iff c).mpr hp)
      simp only [lowerCode] at h ⊢
      split_ifs at h ⊢ <;> omega
    · rw [if_neg pc, if_neg pd]
  · rw [if_neg (by simp [h1]), if_neg (by simp [h2])]

/-- The per-position relation of titles that "differ only in letter case or in
non-alphanumeric characters": either the two code points agree up to case, or
both are non-alphanumeric. -/
def caseOrSymbol (c d : Nat) : Prop :=
  lowerCode c = lowerCode d ∨ (isAlnumCode c = false ∧ isAlnumCode d = false)

theorem sanitizeKey_congr {t1 t2 : Str} (h : List.Forall₂ caseOrSymbol t1 t2) :
    sanitizeKey t1 = sanitizeKey t2 := by
  rw [sanitizeKey_eq_map, sanitizeKey_eq_map]
  induction h with
  | nil => rfl
  | cons hcd _ ih => simp only [List.map_cons, ih, sanitizeCode_congr hcd]

theorem getProjectRating_count (R : Ratings) (t : Str) :
    (getProjectRating R t).2 = (R (sanitizeKey t)).length := by
  rw [getProjectRating]
  split <;> simp_all

/-- A concrete valid record titled `"Foo Bar"`. -/
def fooBarRec : Project :=
  { title := some ("Foo Bar".codes), link := some ("c.html".codes),
    category := some ("web".codes), description := none, tech := [] }

/-- A concrete valid record titled `"foo-bar"`. -/
def fooDashRec : Project :=
  { title := some ("foo-bar".codes), link := some ("d.html".codes),
    category := some ("web".codes), description := none, tech := [] }

/-- C10: ratings identify projects only up to `sanitizeKey` (lower-casing plus
replacement of every non-alphanumeric by `_`): titles that agree pointwise up
to case or non-alphanumeric characters share a key; titles with equal keys have
equal rating results in every store, and submitting a rating on one increments
the rating count of the other; concretely `"Foo Bar"` and `"foo-bar"` are
distinct titles with a common key that both survive deduplication. -/
theorem sanitizeKey_collision_spec :
    (∀ t1 t2 : Str, List.Forall₂ caseOrSymbol t1 t2 →
       sanitizeKey t1 = sanitizeKey t2) ∧
    (∀ t1 t2 : Str, sanitizeKey t1 = sanitizeKey t2 →
       (∀ R : Ratings, getProjectRating R t1 = getProjectRating R t2) ∧
       (∀ (R : Ratings) (v : Nat) (rev : Str) (ts : Nat),
          (getProjectRating (submitRating R t1 v rev ts) t2).2 =
            (getProjectRating R t2).2 + 1)) ∧
    sanitizeKey ("Foo Bar".codes) = sanitizeKey ("foo-bar".codes) ∧
    "Foo Bar".codes ≠ "foo-bar".codes ∧
    dedup [fooBarRec, fooDashRec] = [fooBarRec, fooDashRec] := by
  refine ⟨fun t1 t2 => sanitizeKey_congr, ?_, by decide, by decide, by decide⟩
  intro t1 t2 h
  constructor
  · intro R
    simp only [getProjectRating, h]
  · intro R v rev ts
    rw [getProjectRating_count, getProjectRating_count, submitRating]
    rw [if_pos h.symm, List.length_append, List.length_singleton]

/-- Code-point lexicographic comparison of two strings. -/
def lexCmp : Str → Str → Ordering
  | [], [] => .eq
  | [], _ :: _ => .lt
  | _ :: _, [] => .gt
  | a :: as, b :: bs =>
    if a < b then .lt else if b < a then .gt else lexCmp as bs

/-- Modelled from the spec: `String.prototype.localeCompare`, the locale-aware
comparison used by the `az`/`za` sort modes, idealized as case-insensitive
code-point lexicographic comparison (the collation's primary strength; finer
case-level tie-breaks are immaterial here because the deduplicated store never
holds two titles equal up to case). -/
def localeCompare (a b : Str) : Ordering :=
  lexCmp (toLowerStr a) (toLowerStr b)

theorem lexCmp_nil_left_ne_gt (b : Str) : lexCmp [] b ≠ .gt := by
  cases b <;> simp [lexCmp]

theorem lexCmp_gt_asymm : ∀ {a b : Str}, lexCmp a b = .gt → lexCmp b a ≠ .gt
  | [], b, h => absurd h (lexCmp_nil_left_ne_gt b)
  | _ :: _, [], _ => lexCmp_nil_left_ne_gt _
  | x :: as, y :: bs, h => by
    simp only [lexCmp] at h ⊢
    split_ifs at h ⊢ <;>
      first
        | omega
        | exact lexCmp_gt_asymm h
        | simp_all

theorem lexCmp_le_trans :
    ∀ {a b c : Str}, lexCmp a b ≠ .gt → lexCmp b c ≠ .gt → lexCmp a c ≠ .gt
  | [], _, c, _, _ => lexCmp_nil_left_ne_gt c
  | _ :: _, [], _, h1, _ => by simp [lexCmp] at h1
  | _ :: _, _ :: _, [], _, h2 => by simp [lexCmp] at h2
  | x :: as, y :: bs, z :: cs, h1, h2 => by
    simp only [lexCmp] at h1 h2 ⊢
    split_ifs at h1 h2 ⊢ <;>
      first
        | omega
        | exact lexCmp_le_trans h1 h2
        | simp_all

/-- The title of a record as used by the sort comparators (`a.title`). -/
def Project.titleStr (p : Project) : Str := p.title.getD []

/-- The `az` comparator admits `a` before `b`:
`a.title.localeCompare(b.title) <= 0` (app.js line 393). -/
def azRel (a b : Project) : Prop :=
  localeCompare a.titleStr b.titleStr ≠ .gt

/-- The `za` comparator admits `a` before `b`:
`b.title.localeCompare(a.title) <= 0` (app.js line 394). -/
def zaRel (a b : Project) : Prop :=
  localeCompare b.titleStr a.titleStr ≠ .gt

instance : DecidableRel azRel := fun a b => by unfold azRel; infer_instance

instance : DecidableRel zaRel := fun a b => by unfold zaRel; infer_instance

instance : IsTotal Project azRel where
  total a b := by
    by_cases h : localeCompare a.titleStr b.titleStr = .gt
    · exact Or.inr (lexCmp_gt_asymm h)
    · exact Or.inl h

instance : IsTrans Project azRel where
  trans _ _ _ h1 h2 := lexCmp_le_trans h1 h2

instance : IsTotal Project zaRel where
  total a b := by
    by_cases h : localeCompare b.titleStr a.titleStr = .gt
    · exact Or.inr (lexCmp_gt_asymm h)
    · exact Or.inl h

instance : IsTrans Project zaRel where
  trans _ _ _ h1 h2 := lexCmp_le_trans h2 h1

/-- The externally supplied average rating of a record
(`this.getProjectRating(a.title).average`). -/
def avgOf (R : Ratings) (p : Project) : ℚ := (getProjectRating R p.titleStr).1

/-- The `rating-high` comparator admits `a` before `b`:
`ratingB - ratingA <= 0` (app.js lines 396–402). -/
def ratingHighRel (R : Ratings) (a b : Project) : Prop := avgOf R b ≤ avgOf R a

/-- The `rating-low` comparator admits `a` before `b`:
`ratingA - ratingB <= 0` (app.js lines 403–409). -/
def ratingLowRel (R : Ratings) (a b : Project) : Prop := avgOf R a ≤ avgOf R b

instance (R : Ratings) : DecidableRel (ratingHighRel R) := fun a b => by
  unfold ratingHighRel; infer_instance

instance (R : Ratings) : DecidableRel (ratingLowRel R) := fun a b => by
  unfold ratingLowRel; infer_instance

instance (R : Ratings) : IsTotal Project (ratingHighRel R) where
  total a b := le_total (avgOf R b) (avgOf R a)

instance (R : Ratings) : IsTrans Project (ratingHighRel R) where
  trans _ _ _ h1 h2 := le_trans h2 h1

instance (R : Ratings) : IsTotal Project (ratingLowRel R) where
  total a b := le_total (avgOf R a) (avgOf R b)

instance (R : Ratings) : IsTrans Project (ratingLowRel R) where
  trans _ _ _ h1 h2 := le_trans h1 h2

/-- The caller-side sort of `render()` (app.js lines 391–409): dispatch on the
sort mode, applied to the filtered list after the engine and before
pagination.  `Array.prototype.sort` is stable and sorts according to the
comparator, which is exactly `List.insertionSort` of the comparator's
"admits-before" relation. -/
def sortProjects (R : Ratings) (mode : Str) (l : List Project) : List Project :=
  if mode = "az".codes then List.insertionSort azRel l
  else if mode = "za".codes then List.insertionSort zaRel l
  else if mode = "newest".codes then l.reverse
  else if mode = "rating-high".codes then
    List.insertionSort (ratingHighRel R) l
  else if mode = "rating-low".codes then
    List.insertionSort (ratingLowRel R) l
  else l

theorem sortProjects_default (R : Ratings) (l : List Project) :
    sortProjects R ("default".codes) l = l := by
  rw [sortProjects, if_neg (by decide), if_neg (by decide),
    if_neg (by decide), if_neg (by decide), if_neg (by decide)]

theorem sortProjects_az (R : Ratings) (l : List Project) :
    sortProjects R ("az".codes) l = List.insertionSort azRel l := by
  rw [sortProjects, if_pos rfl]

theorem sortProjects_za (R : Ratings) (l : List Project) :
    sortProjects R ("za".codes) l = List.insertionSort zaRel l := by
  rw [sortProjects, if_neg (by decide), if_pos rfl]

theorem sortProjects_newest (R : Ratings) (l : List Project) :
    sortProjects R ("newest".codes) l = l.reverse := by
  rw [sortProjects, if_neg (by decide), if_neg (by decide), if_pos rfl]

theorem sortProjects_rating_high (R : Ratings) (l : List Project) :
    sortProjects R ("rating-high".codes) l =
      List.insertionSort (ratingHighRel R) l := by
  rw [sortProjects, if_neg (by decide), if_neg (by decide),
    if_neg (by decide), if_pos rfl]

theorem sortProjects_rating_low (R : Ratings) (l : List Project) :
    sortProjects R ("rating-low".codes) l =
      List.insertionSort (ratingLowRel R) l := by
  rw [sortProjects, if_neg (by decide), if_neg (by decide),
    if_neg (by decide), if_neg (by decide), if_pos rfl]

/-- An empty rating store. -/
def emptyRatings : Ratings := fun _ => []

/-- A concrete record titled `"Zeta"`. -/
def zetaRec : Project :=
  { title := some ("Zeta".codes), link := some ("z.html".codes),
    category := some ("web".codes), description := none, tech := [] }

/-- A concrete record titled `"alpha"`. -/
def alphaRec : Project :=
  { title := some ("alpha".codes), link := some ("al.html".codes),
    category := some ("web".codes), description := none, tech := [] }

/-- A concrete record titled `"Mango"`. -/
def mangoRec : Project :=
  { title := some ("Mango".codes), link := some ("m.html".codes),
    category := some ("web".codes), description := none, tech := [] }

/-- C4: sorting happens caller-side on the filtered result (the engine output
is an order-preserving subsequence of the store), with exactly these modes:
`default` leaves the order unchanged, `newest` reverses it, `az`/`za` sort by
the locale title comparison ascending/descending, `rating-high`/`rating-low`
sort by the externally supplied average rating descending/ascending; and
concretely `az` sorts titles `["Zeta","alpha","Mango"]` into
`["alpha","Mango","Zeta"]`. -/
theorem sort_modes_spec :
    (∀ store c q, List.Sublist (getVisibleProjects store c q) store) ∧
    (∀ R l, sortProjects R ("default".codes) l = l) ∧
    (∀ R l, sortProjects R ("newest".codes) l = l.reverse) ∧
    (∀ R l, (sortProjects R ("az".codes) l).Perm l ∧
       List.Sorted azRel (sortProjects R ("az".codes) l)) ∧
    (∀ R l, (sortProjects R ("za".codes) l).Perm l ∧
       List.Sorted zaRel (sortProjects R ("za".codes) l)) ∧
    (∀ R l, (sortProjects R ("rating-high".codes) l).Perm l ∧
       List.Sorted (ratingHighRel R) (sortProjects R ("rating-high".codes) l)) ∧
    (∀ R l, (sortProjects R ("rating-low".codes) l).Perm l ∧
       List.Sorted (ratingLowRel R) (sortProjects R ("rating-low".codes) l)) ∧
    sortProjects emptyRatings ("az".codes) [zetaRec, alphaRec, mangoRec] =
      [alphaRec, mangoRec, zetaRec] := by
  refine ⟨fun store c q => List.filter_sublist store, sortProjects_default,
    sortProjects_newest, ?_, ?_, ?_, ?_, by decide⟩
  · intro R l
    rw [sortProjects_az]
    exact ⟨List.perm_insertionSort azRel l, List.sorted_insertionSort azRel l⟩
  · intro R l
    rw [sortProjects_za]
    exact ⟨List.perm_insertionSort zaRel l, List.sorted_insertionSort zaRel l⟩
  · intro R l
    rw [sortProjects_rating_high]
    exact ⟨List.perm_insertionSort (ratingHighRel R) l,
      List.sorted_insertionSort (ratingHighRel R) l⟩
  · intro R l
    rw [sortProjects_rating_low]
    exact ⟨List.perm_insertionSort (ratingLowRel R) l,
      List.sorted_insertionSort (ratingLowRel R) l⟩

/-- C7: the rating sorts are stable — two records with equal average rating
keep their relative order through `rating-high` and `rating-low` sorting. -/
theorem rating_sort_stable (R : Ratings) (a b : Project) (l : List Project)
    (hr : avgOf R a = avgOf R b) (hsub : List.Sublist [a, b] l) :
    List.Sublist [a, b] (sortProjects R ("rating-high".codes) l) ∧
    List.Sublist [a, b] (sortProjects R ("rating-low".codes) l) := by
  rw [sortProjects_rating_high, sortProjects_rating_low]
  exact ⟨List.pair_sublist_insertionSort (le_of_eq hr.symm) hsub,
    List.pair_sublist_insertionSort (le_of_eq hr) hsub⟩

theorem rating_sort_stable_witness :
    avgOf emptyRatings fooUpperRec = avgOf emptyRatings fooLowerRec ∧
    List.Sublist [fooUpperRec, fooLowerRec]
      (sortProjects emptyRatings ("rating-high".codes)
        [fooUpperRec, fooLowerRec]) := by
  have hr : avgOf emptyRatings fooUpperRec = avgOf emptyRatings fooLowerRec :=
    rfl
  exact ⟨hr, (rating_sort_stable emptyRatings fooUpperRec fooLowerRec
    [fooUpperRec, fooLowerRec] hr (List.Sublist.refl _)).1⟩

/-- One entry of `project-manifest.json`: `{ path, link, folder }`. -/
structure ManifestEntry where
  path : Str
  link : Str
  folder : Str
deriving DecidableEq

/-- The manifest document: `{ count, projects }`. -/
structure Manifest where
  count : Nat
  projects : List ManifestEntry
deriving DecidableEq

/-- One manifest entry loaded by `fetchFromManifest` (app.js lines 128–141):
a failed or unparsable per-project fetch yields `none` (the JS `null`, after
the entry's `catch`); otherwise the project document with its `link`
overridden by the manifest's. -/
def loadEntry (fileFetch : ManifestEntry → Option Project)
    (e : ManifestEntry) : Option Project :=
  (fileFetch e).map (fun p => { p with link := some e.link })

/-- `ProjectManager.fetchFromManifest` (app.js lines 119–150): `none` when the
manifest itself cannot be fetched or parsed (the outer `catch`); otherwise the
per-project results in manifest order with the failures (`null`s) filtered
out. -/
def fetchFromManifest (manifestFetch : Option Manifest)
    (fileFetch : ManifestEntry → Option Project) : Option (List Project) :=
  match manifestFetch with
  | none => none
  | some m => some ((m.projects.map (loadEntry fileFetch)).filterMap id)

/-- The source selection of `ProjectManager.fetchProjects` (app.js lines
77–84): the manifest result when non-null and non-empty, else the legacy
`projects.json` list (itself `[]` when the legacy fetch fails).  The
duplicated `let projects = await this.fetchFromManifest()` of lines 77–78 is
modelled as one fetch: in this pure model the second, shadowing call returns
the same value (as written, the duplicate `let` binding is a JavaScript syntax
error — see the note on claim C5). -/
def pickSource (manifestRes : Option (List Project)) (legacy : List Project) :
    List Project :=
  match manifestRes with
  | none => legacy
  | some l => if l.length = 0 then legacy else l

/-- The store built by `fetchProjects`: the selected source, deduplicated
(app.js lines 86–94). -/
def fetchProjects (manifestRes : Option (List Project))
    (legacy : List Project) : List Project :=
  dedup (pickSource manifestRes legacy)

/-- What `fetchProjects` puts in the projects area: the static error message
(reached only when an exception escapes the pipeline — the two fetch helpers
never throw, each catching its own errors and returning `null`/`[]`), or the
grid rendered from the deduplicated store. -/
inductive LoadOutcome where
  | errorMsg
  | grid (store : List Project)
deriving DecidableEq

/-- The outcome of `fetchProjects` as a function of the two fetch results:
since neither helper throws, the `catch` of app.js lines 106–112 is never
entered on a fetch failure and the grid is always rendered. -/
def fetchProjectsOutcome (manifestRes : Option (List Project))
    (legacy : List Project) : LoadOutcome :=
  .grid (fetchProjects manifestRes legacy)

/-- C5 (intended semantics): when the manifest fetch fails (`null`) or yields
zero records, the final store is exactly the deduplicated legacy catalog. -/
theorem fetchProjects_fallback (manifestRes : Option (List Project))
    (legacy : List Project) (h : manifestRes = none ∨ manifestRes = some []) :
    fetchProjects manifestRes legacy = dedup legacy := by
  rcases h with rfl | rfl <;> simp [fetchProjects, pickSource]

theorem fetchProjects_fallback_witness :
    fetchProjects none [fooUpperRec, fooLowerRec] =
      dedup [fooUpperRec, fooLowerRec] :=
  fetchProjects_fallback none [fooUpperRec, fooLowerRec] (Or.inl rfl)

/-- C6 counterexample: with both sources failed/empty (manifest `null`, legacy
`[]`) the user sees the empty grid path, not the static error message the
claim asserts. -/
theorem total_failure_no_error_msg :
    fetchProjectsOutcome none [] = LoadOutcome.grid [] ∧
    fetchProjectsOutcome none [] ≠ LoadOutcome.errorMsg := by
  constructor
  · rfl
  · intro h
    exact LoadOutcome.noConfusion h

/-- C6 (amended): an individual per-project failure is skipped — it
contributes nothing, wherever it sits in the manifest — without aborting the
manifest load (the result stays non-null); and a total failure of both
sources yields the empty grid, never the error message. -/
theorem load_failure_amended (f : ManifestEntry → Option Project) (n : Nat)
    (pre post : List ManifestEntry) (e : ManifestEntry) (h : f e = none) :
    fetchFromManifest (some ⟨n, pre ++ e :: post⟩) f =
      fetchFromManifest (some ⟨n, pre ++ post⟩) f ∧
    (fetchFromManifest (some ⟨n, pre ++ e :: post⟩) f).isSome = true ∧
    (∀ m, (fetchFromManifest (some m) f).isSome = true) ∧
    fetchProjectsOutcome none [] = LoadOutcome.grid [] ∧
    (∀ mf, fetchProjectsOutcome (fetchFromManifest mf f) [] ≠
       LoadOutcome.errorMsg) := by
  refine ⟨?_, rfl, fun m => rfl, rfl, ?_⟩
  · simp [fetchFromManifest, loadEntry, h]
  · intro mf hc
    rcases mf with _ | m <;>
      simp [fetchProjectsOutcome, fetchFromManifest] at hc

/-- A concrete manifest entry. -/
def demoEntry : ManifestEntry :=
  { path := "p/project.json".codes, link := "p/index.html".codes,
    folder := "p".codes }

theorem load_failure_amended_witness :
    fetchFromManifest (some ⟨1, [] ++ demoEntry :: []⟩)
        (fun _ => (none : Option Project)) =
      fetchFromManifest (some ⟨1, [] ++ []⟩)
        (fun _ => (none : Option Project)) :=
  (load_failure_amended (fun _ => none) 1 [] [] demoEntry rfl).1

/-- One contributor returned by the GitHub endpoint. -/
structure Contributor where
  login : Str
  avatarUrl : Str
  htmlUrl : Str
  contributions : Nat
deriving DecidableEq

/-- `contributors.filter(c => !c.login.includes('[bot]'))` from
`fetchContributors` (app.js line 626); the filtered list is rendered in the
order returned by the endpoint. -/
def humanContributors (l : List Contributor) : List Contributor :=
  l.filter (fun c => !(strContains c.login ("[bot]".codes)))

/-- C9: every contributor whose login contains `"[bot]"` is excluded, every
other contributor is kept, and the kept entries appear in endpoint order. -/
theorem contributors_spec :
    (∀ l, List.Sublist (humanContributors l) l) ∧
    (∀ l c, c ∈ humanContributors l ↔
       c ∈ l ∧ ¬("[bot]".codes <:+: c.login)) := by
  refine ⟨fun l => List.filter_sublist l, ?_⟩
  intro l c
  rw [humanContributors, List.mem_filter]
  simp only [Bool.not_eq_true', ← Bool.not_eq_true, strContains_iff_infix]
